import Mathlib

/-!
Verification of the `lending_thread_pool` worker pool
(`src/src/thread_pool/mod.rs`).

Tasks are opaque closures in the source (`Box<dyn FnOnce(&mut WorkerData) + Send>`),
so they are embedded as elements of an abstract type `τ`; per-worker data is an
abstract type `β`.  The two condition variables (`workers_condvar`,
`pool_condvar`) carry no data, so they are not fields of the embedded shared
state; instead every lock-protected critical section is embedded as a pure step
function that returns, besides its outcome and the updated shared state, a
`Signals` record saying which notifications the section emits.  Blocking waits
appear as `Blocked` / `Wait` outcomes that leave the state unchanged (the Rust
loop re-runs the same critical section after the condvar wait).
-/

namespace LendingThreadPool

/-- Embedding of `enum PoolQueue<WorkerData> { Done, Todo(VecDeque<Task<WorkerData>>) }`
(mod.rs lines 38-41).  `Done` is the terminal shutting-down state; `Todo`
holds the pending tasks front-first. -/
inductive PoolQueue (τ : Type) where
  | Done : PoolQueue τ
  | Todo : List τ → PoolQueue τ
  deriving DecidableEq

/-- Embedding of `enum DequeueResult<WorkerData>` (mod.rs lines 52-59). -/
inductive DequeueResult (τ : Type) where
  | Joined : DequeueResult τ
  | WaitingForTasks : DequeueResult τ
  | TaskAvailable : (task : τ) → (has_more : Bool) → DequeueResult τ
  deriving DecidableEq

/-- Embedding of `PoolQueue::dequeue` (mod.rs lines 62-73).  The Rust method mutates the
queue through `&mut self` and `VecDeque::pop_front`; here the updated queue is
returned alongside the result. -/
def PoolQueue.dequeue {τ : Type} : PoolQueue τ → DequeueResult τ × PoolQueue τ
  | .Done => (.Joined, .Done)
  | .Todo [] => (.WaitingForTasks, .Todo [])
  | .Todo (task :: rest) => (.TaskAvailable task (!rest.isEmpty), .Todo rest)

/-- Condvar notifications emitted by one critical section:
`workers_condvar.notify_one()`, `workers_condvar.notify_all()`,
`pool_condvar.notify_all()`. -/
structure Signals where
  workersNotifyOne : Bool
  workersNotifyAll : Bool
  poolNotifyAll : Bool
  deriving DecidableEq

/-- No notification emitted. -/
def Signals.silent : Signals := ⟨false, false, false⟩

/-- Embedding of `struct ThreadPoolShared<WorkerData>` (mod.rs lines 77-82), minus the two
condition variables (they carry no data; their use is recorded in `Signals`). -/
structure ThreadPoolShared (τ : Type) where
  max_pending_tasks : Nat
  pending_tasks : PoolQueue τ
  deriving DecidableEq

/-- Embedding of `struct ThreadPool<WorkerData>` (mod.rs lines 31-34): the shared state and
the vector of worker join handles; each handle is tagged with the `WorkerData`
value the corresponding thread owns (mod.rs lines 157-201 spawn one thread per
element, index for index). -/
structure ThreadPool (τ β : Type) where
  shared : ThreadPoolShared τ
  workers : List β
  deriving DecidableEq

/-- Outcome of one iteration of the `ThreadPool::enqueue` loop body. -/
inductive EnqueueOutcome where
  | Blocked : EnqueueOutcome
  | Enqueued : EnqueueOutcome
  | UseAfterShutdown : EnqueueOutcome
  deriving DecidableEq

/-- One iteration of the lock-protected loop of `ThreadPool::enqueue`
(mod.rs lines 219-240): with the queue `Todo`, wait on `pool_condvar` while
`tasks.len() >= max_pending_tasks`, otherwise `push_back` the task and
`workers_condvar.notify_one()`; with the queue `Done` the code hits
`unreachable!` (a panic, embedded as `UseAfterShutdown` with the state and
queue untouched). -/
def enqueueStep {τ : Type} (s : ThreadPoolShared τ) (task : τ) :
    EnqueueOutcome × ThreadPoolShared τ × Signals :=
  match s.pending_tasks with
  | .Todo tasks =>
    if tasks.length ≥ s.max_pending_tasks then
      (.Blocked, s, Signals.silent)
    else
      (.Enqueued, { s with pending_tasks := .Todo (tasks ++ [task]) },
        ⟨true, false, false⟩)
  | .Done => (.UseAfterShutdown, s, Signals.silent)

/-- Outcome of one iteration of the worker loop. -/
inductive WorkerOutcome (τ : Type) where
  | Exit : WorkerOutcome τ
  | Wait : WorkerOutcome τ
  | Run : τ → WorkerOutcome τ
  deriving DecidableEq

/-- One iteration of the worker thread loop (mod.rs lines 164-198): the worker
locks the queue and calls `dequeue`.  `Joined` breaks the loop (thread exits);
`WaitingForTasks` waits on `workers_condvar`; `TaskAvailable { task, has_more }`
emits `pool_condvar.notify_all()`, releases the lock, emits
`workers_condvar.notify_all()` iff `has_more`, then runs the task. -/
def workerStep {τ : Type} (s : ThreadPoolShared τ) :
    WorkerOutcome τ × ThreadPoolShared τ × Signals :=
  match PoolQueue.dequeue s.pending_tasks with
  | (.Joined, q) => (.Exit, { s with pending_tasks := q }, Signals.silent)
  | (.WaitingForTasks, q) => (.Wait, { s with pending_tasks := q }, Signals.silent)
  | (.TaskAvailable task more, q) =>
    (.Run task, { s with pending_tasks := q }, ⟨false, more, true⟩)

/-- Outcome of one iteration of the `ThreadPool::join_by_ref` loop body. -/
inductive JoinOutcome where
  | AlreadyDone : JoinOutcome
  | Wait : JoinOutcome
  | Shutdown : JoinOutcome
  deriving DecidableEq

/-- The lock-protected part of `ThreadPool::join_by_ref` (mod.rs lines
251-267): `Done` returns immediately; `Todo` non-empty waits on
`pool_condvar`; `Todo []` breaks out, sets the queue to `Done`, drops the
guard and emits `workers_condvar.notify_all()`. -/
def joinCheckStep {τ : Type} (s : ThreadPoolShared τ) :
    JoinOutcome × ThreadPoolShared τ × Signals :=
  match s.pending_tasks with
  | .Done => (.AlreadyDone, s, Signals.silent)
  | .Todo [] =>
    (.Shutdown, { s with pending_tasks := .Done }, ⟨false, true, false⟩)
  | .Todo (_ :: _) => (.Wait, s, Signals.silent)

/-- Embedding of `ThreadPool::join_by_ref` (mod.rs lines 250-273) at the pool-handle level:
after the lock-protected check, the `Shutdown` branch takes the worker handles
out of the pool (`mem::take`) and joins every one of them; the last component
lists the handles joined by this call.  `Drop for ThreadPool` (mod.rs lines
276-280) and `ThreadPool::join` (mod.rs lines 246-248) both delegate here. -/
def joinByRefStep {τ β : Type} (p : ThreadPool τ β) :
    JoinOutcome × ThreadPool τ β × Signals × List β :=
  match joinCheckStep p.shared with
  | (.Shutdown, s, sig) => (.Shutdown, ⟨s, []⟩, sig, p.workers)
  | (o, s, sig) => (o, ⟨s, p.workers⟩, sig, [])

/-- Embedding of `ThreadPool::new_with_queue_size` (mod.rs lines 140-204): asserts the
worker-data vector is non-empty and `max_pending_tasks` is non-zero (the two
`assert_ne!` at lines 141-149, embedded as `none`), then builds the shared
state with an empty `Todo` queue and spawns one worker per element. -/
def new_with_queue_size {τ β : Type} (workers_data : List β)
    (max_pending_tasks : Nat) : Option (ThreadPool τ β) :=
  if workers_data.length = 0 then
    none
  else if max_pending_tasks = 0 then
    none
  else
    some ⟨⟨max_pending_tasks, .Todo []⟩, workers_data⟩

/-- Embedding of `ThreadPool::new` (mod.rs lines 109-112): queue size defaults to the
number of workers. -/
def new {τ β : Type} (workers_data : List β) : Option (ThreadPool τ β) :=
  new_with_queue_size (τ := τ) workers_data workers_data.length

/-- Global observable state of the shared queue together with the histories
needed to state ordering properties: `enqueued` lists the tasks pushed by
`enqueue` in submission order, `dequeued` lists the tasks popped by workers
in pop order. -/
structure SysState (τ : Type) where
  pool : ThreadPoolShared τ
  enqueued : List τ
  dequeued : List τ
  deriving DecidableEq

/-- One interleaved execution step of the pool: each constructor is one
lock-protected critical section, keyed to the step function embedding it.
The producer, the workers and the joiner interleave arbitrarily. -/
inductive SysStep {τ : Type} : SysState τ → SysState τ → Prop where
  | enqueueOk (s : SysState τ) (t : τ) (s' : ThreadPoolShared τ) (sig : Signals) :
      enqueueStep s.pool t = (.Enqueued, s', sig) →
      SysStep s ⟨s', s.enqueued ++ [t], s.dequeued⟩
  | enqueueBlocked (s : SysState τ) (t : τ) (s' : ThreadPoolShared τ) (sig : Signals) :
      enqueueStep s.pool t = (.Blocked, s', sig) →
      SysStep s ⟨s', s.enqueued, s.dequeued⟩
  | workerRun (s : SysState τ) (t : τ) (s' : ThreadPoolShared τ) (sig : Signals) :
      workerStep s.pool = (.Run t, s', sig) →
      SysStep s ⟨s', s.enqueued, s.dequeued ++ [t]⟩
  | workerWait (s : SysState τ) (s' : ThreadPoolShared τ) (sig : Signals) :
      workerStep s.pool = (.Wait, s', sig) →
      SysStep s ⟨s', s.enqueued, s.dequeued⟩
  | workerExit (s : SysState τ) (s' : ThreadPoolShared τ) (sig : Signals) :
      workerStep s.pool = (.Exit, s', sig) →
      SysStep s ⟨s', s.enqueued, s.dequeued⟩
  | joinCheck (s : SysState τ) (o : JoinOutcome) (s' : ThreadPoolShared τ) (sig : Signals) :
      joinCheckStep s.pool = (o, s', sig) →
      SysStep s ⟨s', s.enqueued, s.dequeued⟩

/-- States reachable from a freshly constructed pool of capacity `C`
(`pending_tasks: Mutex::new(PoolQueue::Todo(VecDeque::new()))`, mod.rs
line 154) by arbitrary interleaving of the critical sections. -/
inductive Reachable {τ : Type} (C : Nat) : SysState τ → Prop where
  | init : Reachable C ⟨⟨C, .Todo []⟩, [], []⟩
  | step {s s' : SysState τ} : Reachable C s → SysStep s s' → Reachable C s'

/-- Execution step available while the pool handle is still live, i.e. before
`join` or `drop` has consumed it: everything in `SysStep` except the
`join_by_ref` critical section. -/
inductive LiveStep {τ : Type} : SysState τ → SysState τ → Prop where
  | enqueueOk (s : SysState τ) (t : τ) (s' : ThreadPoolShared τ) (sig : Signals) :
      enqueueStep s.pool t = (.Enqueued, s', sig) →
      LiveStep s ⟨s', s.enqueued ++ [t], s.dequeued⟩
  | enqueueBlocked (s : SysState τ) (t : τ) (s' : ThreadPoolShared τ) (sig : Signals) :
      enqueueStep s.pool t = (.Blocked, s', sig) →
      LiveStep s ⟨s', s.enqueued, s.dequeued⟩
  | workerRun (s : SysState τ) (t : τ) (s' : ThreadPoolShared τ) (sig : Signals) :
      workerStep s.pool = (.Run t, s', sig) →
      LiveStep s ⟨s', s.enqueued, s.dequeued ++ [t]⟩
  | workerWait (s : SysState τ) (s' : ThreadPoolShared τ) (sig : Signals) :
      workerStep s.pool = (.Wait, s', sig) →
      LiveStep s ⟨s', s.enqueued, s.dequeued⟩
  | workerExit (s : SysState τ) (s' : ThreadPoolShared τ) (sig : Signals) :
      workerStep s.pool = (.Exit, s', sig) →
      LiveStep s ⟨s', s.enqueued, s.dequeued⟩

/-- States reachable while the handle is live (no teardown step yet). -/
inductive ReachableLive {τ : Type} (C : Nat) : SysState τ → Prop where
  | init : ReachableLive C ⟨⟨C, .Todo []⟩, [], []⟩
  | step {s s' : SysState τ} : ReachableLive C s → LiveStep s s' → ReachableLive C s'

/-! ### Inversion lemmas for the step functions -/

theorem enqueueStep_eq_enqueued {τ : Type} {s s' : ThreadPoolShared τ} {t : τ}
    {sig : Signals} (h : enqueueStep s t = (.Enqueued, s', sig)) :
    ∃ ts, s.pending_tasks = .Todo ts ∧ ts.length < s.max_pending_tasks ∧
      s' = { s with pending_tasks := .Todo (ts ++ [t]) } ∧
      sig = ⟨true, false, false⟩ := by
  cases hq : s.pending_tasks with
  | Done => simp [enqueueStep, hq] at h
  | Todo ts =>
    by_cases hl : ts.length ≥ s.max_pending_tasks
    · simp [enqueueStep, hq, hl] at h
    · simp only [enqueueStep, hq, if_neg hl, Prod.mk.injEq] at h
      exact ⟨ts, rfl, by omega, h.2.1.symm, h.2.2.symm⟩

theorem enqueueStep_eq_blocked {τ : Type} {s s' : ThreadPoolShared τ} {t : τ}
    {sig : Signals} (h : enqueueStep s t = (.Blocked, s', sig)) :
    s' = s ∧ ∃ ts, s.pending_tasks = .Todo ts ∧
      s.max_pending_tasks ≤ ts.length := by
  cases hq : s.pending_tasks with
  | Done => simp [enqueueStep, hq] at h
  | Todo ts =>
    by_cases hl : ts.length ≥ s.max_pending_tasks
    · simp only [enqueueStep, hq, if_pos hl, Prod.mk.injEq] at h
      exact ⟨h.2.1.symm, ts, rfl, hl⟩
    · simp [enqueueStep, hq, hl] at h

theorem workerStep_eq_run {τ : Type} {s s' : ThreadPoolShared τ} {t : τ}
    {sig : Signals} (h : workerStep s = (.Run t, s', sig)) :
    ∃ ts, s.pending_tasks = .Todo (t :: ts) ∧
      s' = { s with pending_tasks := .Todo ts } ∧
      sig = ⟨false, !ts.isEmpty, true⟩ := by
  cases hq : s.pending_tasks with
  | Done => simp [workerStep, PoolQueue.dequeue, hq] at h
  | Todo ts =>
    cases ts with
    | nil => simp [workerStep, PoolQueue.dequeue, hq] at h
    | cons a rest =>
      simp only [workerStep, PoolQueue.dequeue, hq, Prod.mk.injEq,
        WorkerOutcome.Run.injEq] at h
      exact ⟨rest, by rw [h.1], h.2.1.symm, h.2.2.symm⟩

theorem workerStep_eq_wait {τ : Type} {s s' : ThreadPoolShared τ}
    {sig : Signals} (h : workerStep s = (.Wait, s', sig)) :
    s' = s ∧ s.pending_tasks = .Todo [] := by
  cases hq : s.pending_tasks with
  | Done => simp [workerStep, PoolQueue.dequeue, hq] at h
  | Todo ts =>
    cases ts with
    | nil =>
      simp only [workerStep, PoolQueue.dequeue, hq, Prod.mk.injEq] at h
      refine ⟨h.2.1.symm.trans ?_, rfl⟩
      cases s; simp_all
    | cons a rest => simp [workerStep, PoolQueue.dequeue, hq] at h

theorem workerStep_eq_exit {τ : Type} {s s' : ThreadPoolShared τ}
    {sig : Signals} (h : workerStep s = (.Exit, s', sig)) :
    s' = s ∧ s.pending_tasks = .Done := by
  cases hq : s.pending_tasks with
  | Done =>
    simp only [workerStep, PoolQueue.dequeue, hq, Prod.mk.injEq] at h
    refine ⟨h.2.1.symm.trans ?_, rfl⟩
    cases s; simp_all
  | Todo ts =>
    cases ts with
    | nil => simp [workerStep, PoolQueue.dequeue, hq] at h
    | cons a rest => simp [workerStep, PoolQueue.dequeue, hq] at h

theorem joinCheckStep_cases {τ : Type} {s s' : ThreadPoolShared τ}
    {o : JoinOutcome} {sig : Signals} (h : joinCheckStep s = (o, s', sig)) :
    (s.pending_tasks = .Done ∧ s' = s) ∨
    (s.pending_tasks = .Todo [] ∧ s' = { s with pending_tasks := .Done }) ∨
    (∃ t ts, s.pending_tasks = .Todo (t :: ts) ∧ s' = s) := by
  cases hq : s.pending_tasks with
  | Done =>
    simp only [joinCheckStep, hq, Prod.mk.injEq] at h
    exact Or.inl ⟨rfl, h.2.1.symm⟩
  | Todo ts =>
    cases ts with
    | nil =>
      simp only [joinCheckStep, hq, Prod.mk.injEq] at h
      exact Or.inr (Or.inl ⟨rfl, h.2.1.symm⟩)
    | cons a rest =>
      simp only [joinCheckStep, hq, Prod.mk.injEq] at h
      exact Or.inr (Or.inr ⟨a, rest, rfl, h.2.1.symm⟩)

theorem sysStep_max_pending {τ : Type} {s s' : SysState τ} (h : SysStep s s') :
    s'.pool.max_pending_tasks = s.pool.max_pending_tasks := by
  cases h with
  | enqueueOk t s' sig he =>
    obtain ⟨ts, _, _, rfl, _⟩ := enqueueStep_eq_enqueued he; rfl
  | enqueueBlocked t s' sig he =>
    obtain ⟨rfl, _⟩ := enqueueStep_eq_blocked he; rfl
  | workerRun t s' sig he =>
    obtain ⟨ts, _, rfl, _⟩ := workerStep_eq_run he; rfl
  | workerWait s' sig he =>
    obtain ⟨rfl, _⟩ := workerStep_eq_wait he; rfl
  | workerExit s' sig he =>
    obtain ⟨rfl, _⟩ := workerStep_eq_exit he; rfl
  | joinCheck o s' sig he =>
    rcases joinCheckStep_cases he with ⟨_, rfl⟩ | ⟨_, rfl⟩ | ⟨t, ts, _, rfl⟩ <;> rfl

/-! ### Global invariants of reachable states -/

theorem reachable_bound {τ : Type} {C : Nat} {s : SysState τ}
    (h : Reachable C s) :
    s.pool.max_pending_tasks = C ∧
      ∀ ts, s.pool.pending_tasks = .Todo ts → ts.length ≤ C := by
  induction h with
  | init =>
    refine ⟨rfl, fun ts hts => ?_⟩
    cases hts; simp
  | step hr hstep ih =>
    next s s' =>
    obtain ⟨ihmax, ihlen⟩ := ih
    refine ⟨(sysStep_max_pending hstep).trans ihmax, ?_⟩
    cases hstep with
    | enqueueOk t q' sig he =>
      obtain ⟨ts, hq, hlt, rfl, _⟩ := enqueueStep_eq_enqueued he
      intro ts' hts'
      have hts : ts ++ [t] = ts' := by injection hts'
      subst hts
      have : ts.length < C := ihmax ▸ hlt
      simp only [List.length_append, List.length_cons, List.length_nil]
      omega
    | enqueueBlocked t q' sig he =>
      obtain ⟨rfl, _⟩ := enqueueStep_eq_blocked he
      exact ihlen
    | workerRun t q' sig he =>
      obtain ⟨ts, hq, rfl, _⟩ := workerStep_eq_run he
      intro ts' hts'
      have hts : ts = ts' := by injection hts'
      subst hts
      have := ihlen (t :: ts) hq
      simp only [List.length_cons] at this
      omega
    | workerWait q' sig he =>
      obtain ⟨rfl, _⟩ := workerStep_eq_wait he
      exact ihlen
    | workerExit q' sig he =>
      obtain ⟨rfl, _⟩ := workerStep_eq_exit he
      exact ihlen
    | joinCheck o q' sig he =>
      rcases joinCheckStep_cases he with ⟨_, rfl⟩ | ⟨hq, rfl⟩ | ⟨t, ts, _, rfl⟩
      · exact ihlen
      · intro ts' hts'; cases hts'
      · exact ihlen

/-- History invariant: the pending queue is exactly the enqueue history minus
its already-dequeued prefix; once the queue is `Done` the two histories agree
(the queue was drained before shutdown). -/
def histInv {τ : Type} (s : SysState τ) : Prop :=
  (∀ ts, s.pool.pending_tasks = .Todo ts → s.enqueued = s.dequeued ++ ts) ∧
  (s.pool.pending_tasks = .Done → s.enqueued = s.dequeued)

theorem reachable_histInv {τ : Type} {C : Nat} {s : SysState τ}
    (h : Reachable C s) : histInv s := by
  induction h with
  | init => exact ⟨fun ts hts => by cases hts; rfl, fun hts => by cases hts⟩
  | step hr hstep ih =>
    next s s' =>
    obtain ⟨ihTodo, ihDone⟩ := ih
    cases hstep with
    | enqueueOk t q' sig he =>
      obtain ⟨ts, hq, _, rfl, _⟩ := enqueueStep_eq_enqueued he
      refine ⟨fun ts' hts' => ?_, fun hts' => by cases hts'⟩
      have hts : ts ++ [t] = ts' := by injection hts'
      subst hts
      rw [ihTodo ts hq, List.append_assoc]
    | enqueueBlocked t q' sig he =>
      obtain ⟨rfl, _⟩ := enqueueStep_eq_blocked he
      exact ⟨ihTodo, ihDone⟩
    | workerRun t q' sig he =>
      obtain ⟨ts, hq, rfl, _⟩ := workerStep_eq_run he
      refine ⟨fun ts' hts' => ?_, fun hts' => by cases hts'⟩
      have hts : ts = ts' := by injection hts'
      subst hts
      have := ihTodo (t :: ts) hq
      rw [this]
      simp
    | workerWait q' sig he =>
      obtain ⟨rfl, _⟩ := workerStep_eq_wait he
      exact ⟨ihTodo, ihDone⟩
    | workerExit q' sig he =>
      obtain ⟨rfl, _⟩ := workerStep_eq_exit he
      exact ⟨ihTodo, ihDone⟩
    | joinCheck o q' sig he =>
      rcases joinCheckStep_cases he with ⟨_, rfl⟩ | ⟨hq, rfl⟩ | ⟨t, ts, _, rfl⟩
      · exact ⟨ihTodo, ihDone⟩
      · refine ⟨fun ts' hts' => ?_, fun _ => ?_⟩
        · cases hts'
        · simpa using ihTodo [] hq
      · exact ⟨ihTodo, ihDone⟩

theorem reachableLive_todo {τ : Type} {C : Nat} {s : SysState τ}
    (h : ReachableLive C s) : ∃ ts, s.pool.pending_tasks = .Todo ts := by
  induction h with
  | init => exact ⟨[], rfl⟩
  | step hr hstep ih =>
    cases hstep with
    | enqueueOk t q' sig he =>
      obtain ⟨ts, _, _, rfl, _⟩ := enqueueStep_eq_enqueued he
      exact ⟨ts ++ [t], rfl⟩
    | enqueueBlocked t q' sig he =>
      obtain ⟨rfl, _⟩ := enqueueStep_eq_blocked he
      exact ih
    | workerRun t q' sig he =>
      obtain ⟨ts, _, rfl, _⟩ := workerStep_eq_run he
      exact ⟨ts, rfl⟩
    | workerWait q' sig he =>
      obtain ⟨rfl, _⟩ := workerStep_eq_wait he
      exact ih
    | workerExit q' sig he =>
      obtain ⟨hq', hdone⟩ := workerStep_eq_exit he
      obtain ⟨ts, hts⟩ := ih
      rw [hdone] at hts
      cases hts

/-! ### The claims -/

/-- C1: for every pool constructed with capacity `C`, in every state reachable
by interleaving the critical sections of the pool, the pending queue holds at most
`C` tasks while the pool is accepting (`Todo`): `enqueue` appends only when the
length is strictly below `C`, and no other critical section grows the queue. -/
theorem queue_never_exceeds_capacity {τ : Type} {C : Nat} {s : SysState τ}
    (h : Reachable C s) {ts : List τ} (hq : s.pool.pending_tasks = .Todo ts) :
    ts.length ≤ C :=
  (reachable_bound h).2 ts hq

/-- C2: global FIFO delivery.  In every reachable state the dequeue history is
exactly the length-`|dequeued|` prefix of the enqueue history, and positions
agree index for index: the task enqueued `i`-th is the task dequeued `i`-th, so
of two tasks enqueued at positions `i < j`, the first is dequeued strictly
before the second.  This holds because `enqueue` pushes on the tail
(`push_back`) and every worker pops the head (`pop_front`). -/
theorem fifo_submission_order {τ : Type} {C : Nat} {s : SysState τ}
    (h : Reachable C s) :
    s.dequeued = s.enqueued.take s.dequeued.length ∧
      ∀ i, i < s.dequeued.length → s.dequeued[i]? = s.enqueued[i]? := by
  obtain ⟨hTodo, hDone⟩ := reachable_histInv h
  have hpre : s.dequeued = s.enqueued.take s.dequeued.length := by
    cases hq : s.pool.pending_tasks with
    | Done => rw [hDone hq]; simp
    | Todo ts =>
      rw [hTodo ts hq]
      exact (List.take_left s.dequeued ts).symm
  refine ⟨hpre, fun i hi => ?_⟩
  conv_lhs => rw [hpre]
  exact List.getElem?_take_of_lt hi

/-- C3: one pass of `join_by_ref` blocks (waits on `pool_condvar`, changing
nothing) while the queue is non-empty; on an empty queue it flips the state to
`Done` under the lock, emits `workers_condvar.notify_all()` (waking every
worker), takes the worker handle vector out of the pool and joins every one of
its handles, so every worker thread terminates before the call returns. -/
theorem join_drains_then_shuts_down {τ β : Type} (p : ThreadPool τ β) :
    (∀ t ts, p.shared.pending_tasks = .Todo (t :: ts) →
        joinByRefStep p = (.Wait, p, Signals.silent, [])) ∧
    (p.shared.pending_tasks = .Todo [] →
        joinByRefStep p =
          (.Shutdown, ⟨{ p.shared with pending_tasks := .Done }, []⟩,
            ⟨false, true, false⟩, p.workers)) := by
  constructor
  · intro t ts hq
    simp [joinByRefStep, joinCheckStep, hq]
  · intro hq
    simp [joinByRefStep, joinCheckStep, hq]

/-- C4: `enqueue` waits on `pool_condvar` (changing nothing) while the pool is
accepting and the queue is at capacity; when the length is strictly below
capacity it appends the task to the tail and emits exactly
`workers_condvar.notify_one()` — one worker woken, never a broadcast. -/
theorem enqueue_backpressure_and_signal {τ : Type} (s : ThreadPoolShared τ)
    (t : τ) (ts : List τ) (hq : s.pending_tasks = .Todo ts) :
    (ts.length = s.max_pending_tasks →
        enqueueStep s t = (.Blocked, s, Signals.silent)) ∧
    (ts.length < s.max_pending_tasks →
        enqueueStep s t =
          (.Enqueued, { s with pending_tasks := .Todo (ts ++ [t]) },
            ⟨true, false, false⟩)) := by
  constructor
  · intro he
    have : ts.length ≥ s.max_pending_tasks := Nat.le_of_eq he.symm
    simp [enqueueStep, hq, this]
  · intro hlt
    have : ¬ ts.length ≥ s.max_pending_tasks := by omega
    simp [enqueueStep, hq, this]

/-- C5: the `Done` (shutting-down) state is terminal and entered at most once:
no critical section ever moves the pool out of `Done`, and any step that ends
in `Done` either started there or was the `join_by_ref` check firing its
shutdown branch on an already-drained (`Todo []`) queue. -/
theorem shutting_down_terminal {τ : Type} :
    (∀ (s s' : SysState τ), SysStep s s' → s.pool.pending_tasks = .Done →
        s'.pool.pending_tasks = .Done) ∧
    (∀ (s s' : SysState τ), SysStep s s' → s'.pool.pending_tasks = .Done →
        s.pool.pending_tasks = .Done ∨
          (s.pool.pending_tasks = .Todo [] ∧
            joinCheckStep s.pool = (.Shutdown, s'.pool, ⟨false, true, false⟩))) := by
  constructor
  · intro s s' hstep hdone
    cases hstep with
    | enqueueOk t q' sig he =>
      obtain ⟨ts, hq, _, _, _⟩ := enqueueStep_eq_enqueued he
      rw [hdone] at hq; cases hq
    | enqueueBlocked t q' sig he =>
      obtain ⟨rfl, _⟩ := enqueueStep_eq_blocked he
      exact hdone
    | workerRun t q' sig he =>
      obtain ⟨ts, hq, _, _⟩ := workerStep_eq_run he
      rw [hdone] at hq; cases hq
    | workerWait q' sig he =>
      obtain ⟨rfl, _⟩ := workerStep_eq_wait he
      exact hdone
    | workerExit q' sig he =>
      obtain ⟨rfl, _⟩ := workerStep_eq_exit he
      exact hdone
    | joinCheck o q' sig he =>
      rcases joinCheckStep_cases he with ⟨_, rfl⟩ | ⟨hq, rfl⟩ | ⟨t, ts, hq, rfl⟩
      · exact hdone
      · rfl
      · exact hdone
  · intro s s' hstep hdone
    cases hstep with
    | enqueueOk t q' sig he =>
      obtain ⟨ts, hq, _, rfl, _⟩ := enqueueStep_eq_enqueued he
      cases hdone
    | enqueueBlocked t q' sig he =>
      obtain ⟨rfl, _⟩ := enqueueStep_eq_blocked he
      exact Or.inl hdone
    | workerRun t q' sig he =>
      obtain ⟨ts, hq, rfl, _⟩ := workerStep_eq_run he
      cases hdone
    | workerWait q' sig he =>
      obtain ⟨rfl, _⟩ := workerStep_eq_wait he
      exact Or.inl hdone
    | workerExit q' sig he =>
      obtain ⟨rfl, _⟩ := workerStep_eq_exit he
      exact Or.inl hdone
    | joinCheck o q' sig he =>
      rcases joinCheckStep_cases he with ⟨hq, rfl⟩ | ⟨hq, rfl⟩ | ⟨t, ts, hq, rfl⟩
      · exact Or.inl hdone
      · exact Or.inr ⟨hq, by simp [joinCheckStep, hq]⟩
      · exact Or.inl hdone

/-- C6: teardown is idempotent.  If one `join_by_ref` pass completed (it did
not merely wait), the resulting handle has the queue `Done` and its worker
vector already taken, so running teardown again — whether from an explicit
`join` or from `drop` — returns immediately with the state unmodified, emits
no notification, and joins no worker thread a second time. -/
theorem teardown_idempotent {τ β : Type} (p p' : ThreadPool τ β)
    (o : JoinOutcome) (sig : Signals) (js : List β)
    (h : joinByRefStep p = (o, p', sig, js)) (ho : o ≠ JoinOutcome.Wait) :
    joinByRefStep p' = (.AlreadyDone, p', Signals.silent, []) := by
  cases hq : p.shared.pending_tasks with
  | Done =>
    simp only [joinByRefStep, joinCheckStep, hq, Prod.mk.injEq] at h
    obtain ⟨-, hp', -, -⟩ := h
    subst hp'
    simp [joinByRefStep, joinCheckStep, hq]
  | Todo ts =>
    cases ts with
    | nil =>
      simp only [joinByRefStep, joinCheckStep, hq, Prod.mk.injEq] at h
      obtain ⟨-, hp', -, -⟩ := h
      subst hp'
      simp [joinByRefStep, joinCheckStep]
    | cons a rest =>
      simp only [joinByRefStep, joinCheckStep, hq, Prod.mk.injEq] at h
      exact absurd h.1.symm ho

/-- C7: whenever a worker pops the head of the queue, it emits
`pool_condvar.notify_all()` (unblocking a waiting `enqueue` or `join`), and it
emits `workers_condvar.notify_all()` if and only if the queue is still
non-empty after the pop (`has_more`), so a remaining task is never left
unobserved by a waiting sibling worker. -/
theorem worker_pop_signal_discipline {τ : Type} (s : ThreadPoolShared τ)
    (t : τ) (ts : List τ) (hq : s.pending_tasks = .Todo (t :: ts)) :
    workerStep s =
      (.Run t, { s with pending_tasks := .Todo ts },
        ⟨false, !ts.isEmpty, true⟩) ∧
    ((!ts.isEmpty) = true ↔ ts ≠ []) := by
  constructor
  · simp [workerStep, PoolQueue.dequeue, hq]
  · cases ts <;> simp

/-- C8: construction is total and deterministic in its validation:
`new_with_queue_size` yields no pool (and spawns no worker) exactly when the
worker-data list is empty or the capacity is zero, `new` fails exactly on an
empty list, and a successful construction yields the requested capacity, an
empty accepting queue, and one worker per input element. -/
theorem construction_validation {τ β : Type} :
    (∀ (wd : List β) (c : Nat),
        new_with_queue_size (τ := τ) wd c = none ↔ wd = [] ∨ c = 0) ∧
    (∀ wd : List β, new (τ := τ) wd = none ↔ wd = []) ∧
    (∀ (wd : List β) (c : Nat) (p : ThreadPool τ β),
        new_with_queue_size (τ := τ) wd c = some p →
          p.shared.max_pending_tasks = c ∧
            p.shared.pending_tasks = .Todo [] ∧ p.workers = wd) := by
  have hbase : ∀ (wd : List β) (c : Nat),
      new_with_queue_size (τ := τ) wd c = none ↔ wd = [] ∨ c = 0 := by
    intro wd c
    by_cases hw : wd.length = 0
    · simp [new_with_queue_size, hw, List.length_eq_zero.mp hw]
    · by_cases hc : c = 0
      · simp [new_with_queue_size, hw, hc]
      · simp only [new_with_queue_size, if_neg hw, if_neg hc]
        constructor
        · intro hcontra; cases hcontra
        · rintro (rfl | rfl)
          · exact absurd rfl hw
          · exact absurd rfl hc
  refine ⟨hbase, fun wd => ?_, fun wd c p h => ?_⟩
  · rw [new, hbase]
    constructor
    · rintro (rfl | hlen)
      · rfl
      · exact List.length_eq_zero.mp hlen
    · rintro rfl
      exact Or.inl rfl
  · by_cases hw : wd.length = 0
    · simp [new_with_queue_size, hw] at h
    · by_cases hc : c = 0
      · simp [new_with_queue_size, hw, hc] at h
      · simp only [new_with_queue_size, if_neg hw, if_neg hc,
          Option.some.injEq] at h
        subst h
        exact ⟨rfl, rfl, rfl⟩

/-- C9: calling `enqueue` after shutdown is a loud, unreachable error: the
branch of `enqueue` that observes the `Done` queue aborts (`unreachable!`,
embedded as the `UseAfterShutdown` outcome) without touching the queue — the
task is not silently dropped into it — and as long as the handle has not been
consumed by teardown (no `join_by_ref` step has run) every reachable state
still has an accepting `Todo` queue, so that branch cannot fire. -/
theorem enqueue_after_shutdown_aborts {τ : Type} :
    (∀ (s : ThreadPoolShared τ) (t : τ), s.pending_tasks = .Done →
        enqueueStep s t = (.UseAfterShutdown, s, Signals.silent)) ∧
    (∀ (C : Nat) (s : SysState τ), ReachableLive C s →
        ∃ ts, s.pool.pending_tasks = .Todo ts) := by
  constructor
  · intro s t hq
    simp [enqueueStep, hq]
  · intro C s h
    exact reachableLive_todo h

/-- C10: `PoolQueue::dequeue` is exact: on `Done` it returns `Joined` leaving
the queue `Done`; on an empty `Todo` it returns `WaitingForTasks` leaving the
queue unchanged; on a non-empty `Todo` it removes exactly the front task,
keeps the rest in order, and reports `has_more = true` iff at least one task
remains after the removal. -/
theorem dequeue_exact {τ : Type} :
    (PoolQueue.dequeue (PoolQueue.Done : PoolQueue τ) =
      (.Joined, PoolQueue.Done)) ∧
    (PoolQueue.dequeue (PoolQueue.Todo ([] : List τ)) =
      (.WaitingForTasks, .Todo [])) ∧
    (∀ (t : τ) (ts : List τ),
        PoolQueue.dequeue (PoolQueue.Todo (t :: ts)) =
          (.TaskAvailable t (!ts.isEmpty), .Todo ts) ∧
          ((!ts.isEmpty) = true ↔ ts ≠ [])) := by
  refine ⟨rfl, rfl, fun t ts => ⟨rfl, ?_⟩⟩
  cases ts <;> simp

/-! ### Concrete witnesses -/

/-- Witness for C1: after one enqueue into a fresh capacity-1 pool the queue
holds one task, within the bound. -/
theorem queue_never_exceeds_capacity_witness : ([5] : List Nat).length ≤ 1 := by
  have h0 : Reachable 1 (⟨⟨1, .Todo []⟩, [], []⟩ : SysState Nat) := .init
  have hstep : SysStep (⟨⟨1, .Todo []⟩, [], []⟩ : SysState Nat)
      (⟨⟨1, .Todo [5]⟩, [5], []⟩ : SysState Nat) :=
    SysStep.enqueueOk _ 5 ⟨1, .Todo [5]⟩ ⟨true, false, false⟩ (by decide)
  exact queue_never_exceeds_capacity (.step h0 hstep) rfl

/-- Witness for C2: enqueue 7 then 8, pop once; the dequeue history `[7]` is
the one-element prefix of the submission history `[7, 8]`. -/
theorem fifo_submission_order_witness :
    ([7] : List Nat) = ([7, 8] : List Nat).take 1 := by
  have h0 : Reachable 2 (⟨⟨2, .Todo []⟩, [], []⟩ : SysState Nat) := .init
  have h1 : SysStep (⟨⟨2, .Todo []⟩, [], []⟩ : SysState Nat)
      (⟨⟨2, .Todo [7]⟩, [7], []⟩ : SysState Nat) :=
    SysStep.enqueueOk _ 7 ⟨2, .Todo [7]⟩ ⟨true, false, false⟩ (by decide)
  have h2 : SysStep (⟨⟨2, .Todo [7]⟩, [7], []⟩ : SysState Nat)
      (⟨⟨2, .Todo [7, 8]⟩, [7, 8], []⟩ : SysState Nat) :=
    SysStep.enqueueOk _ 8 ⟨2, .Todo [7, 8]⟩ ⟨true, false, false⟩ (by decide)
  have h3 : SysStep (⟨⟨2, .Todo [7, 8]⟩, [7, 8], []⟩ : SysState Nat)
      (⟨⟨2, .Todo [8]⟩, [7, 8], [7]⟩ : SysState Nat) :=
    SysStep.workerRun _ 7 ⟨2, .Todo [8]⟩ ⟨false, true, true⟩ (by decide)
  exact (fifo_submission_order (.step (.step (.step h0 h1) h2) h3)).1

/-- Witness for C3: on a drained two-worker pool, one `join_by_ref` pass shuts
down the queue, broadcasts to the workers, and joins both worker handles. -/
theorem join_drains_then_shuts_down_witness :
    joinByRefStep (⟨⟨2, .Todo []⟩, [10, 20]⟩ : ThreadPool Nat Nat) =
      (.Shutdown, ⟨⟨2, .Done⟩, []⟩, ⟨false, true, false⟩, [10, 20]) :=
  (join_drains_then_shuts_down ⟨⟨2, .Todo []⟩, [10, 20]⟩).2 rfl

/-- Witness for C4: enqueueing into a capacity-1 pool with an empty queue
appends the task and wakes exactly one worker. -/
theorem enqueue_backpressure_and_signal_witness :
    enqueueStep (⟨1, .Todo []⟩ : ThreadPoolShared Nat) 3 =
      (.Enqueued, ⟨1, .Todo [3]⟩, ⟨true, false, false⟩) :=
  (enqueue_backpressure_and_signal ⟨1, .Todo []⟩ 3 [] rfl).2 (by decide)

/-- Witness for C5: a `join_by_ref` check on an already-`Done` pool leaves the
pool `Done`. -/
theorem shutting_down_terminal_witness :
    (⟨⟨1, .Done⟩, [], []⟩ : SysState Nat).pool.pending_tasks = .Done := by
  have hstep : SysStep (⟨⟨1, .Done⟩, [], []⟩ : SysState Nat)
      (⟨⟨1, .Done⟩, [], []⟩ : SysState Nat) :=
    SysStep.joinCheck _ .AlreadyDone ⟨1, .Done⟩ Signals.silent (by decide)
  exact (shutting_down_terminal.1) _ _ hstep rfl

/-- Witness for C6: after a completed shutdown pass on a drained one-worker
pool, a second teardown is a no-op that joins nothing. -/
theorem teardown_idempotent_witness :
    joinByRefStep (⟨⟨1, .Done⟩, []⟩ : ThreadPool Nat Nat) =
      (.AlreadyDone, ⟨⟨1, .Done⟩, []⟩, Signals.silent, []) :=
  teardown_idempotent (⟨⟨1, .Todo []⟩, [10]⟩ : ThreadPool Nat Nat)
    ⟨⟨1, .Done⟩, []⟩ .Shutdown ⟨false, true, false⟩ [10] (by decide) (by decide)

/-- Witness for C7: popping the head of `[4, 5]` runs task 4, broadcasts to
the producer side, and re-broadcasts to the workers since 5 remains. -/
theorem worker_pop_signal_discipline_witness :
    workerStep (⟨2, .Todo [4, 5]⟩ : ThreadPoolShared Nat) =
      (.Run 4, ⟨2, .Todo [5]⟩, ⟨false, true, true⟩) :=
  (worker_pop_signal_discipline ⟨2, .Todo [4, 5]⟩ 4 [5] rfl).1

/-- Witness for C8: constructing from an empty worker-data list yields no
pool, and a zero capacity also yields no pool. -/
theorem construction_validation_witness :
    new_with_queue_size (τ := Nat) ([] : List Nat) 3 = none ∧
      new_with_queue_size (τ := Nat) ([4] : List Nat) 0 = none :=
  ⟨((construction_validation (τ := Nat) (β := Nat)).1 [] 3).mpr (Or.inl rfl),
    ((construction_validation (τ := Nat) (β := Nat)).1 [4] 0).mpr (Or.inr rfl)⟩

/-- Witness for C9: enqueue on a `Done` pool aborts with `UseAfterShutdown`
and leaves the state untouched; a freshly constructed pool is accepting. -/
theorem enqueue_after_shutdown_aborts_witness :
    enqueueStep (⟨1, .Done⟩ : ThreadPoolShared Nat) 9 =
        (.UseAfterShutdown, ⟨1, .Done⟩, Signals.silent) ∧
      ∃ ts, (⟨⟨1, .Todo []⟩, [], []⟩ : SysState Nat).pool.pending_tasks =
        .Todo ts :=
  ⟨enqueue_after_shutdown_aborts.1 ⟨1, .Done⟩ 9 rfl,
    enqueue_after_shutdown_aborts.2 1 _ .init⟩

/-- Witness for C10: popping `[1, 2]` yields task 1 with `has_more = true`
and leaves `[2]`. -/
theorem dequeue_exact_witness :
    PoolQueue.dequeue (PoolQueue.Todo [1, 2]) =
      (.TaskAvailable 1 true, PoolQueue.Todo [2]) :=
  (dequeue_exact.2.2 1 [2]).1

end LendingThreadPool
